import Mathlib

/-!
Verification of the Lloyd relaxation kernel in `src/tess/lloyd.pyx`
(`cpdef lloyd(double[:, :] xy, double[:] w, double[:, :] node_xy, long max_iters)`).

Embedding conventions: coordinates and weights are rationals (exact
arithmetic at the values the finite double inputs denote); arrays are
lists; the `while True` loop of lines 47-90 becomes a fuel-based
recursion whose fuel is the number of rounds the `n_iters > max_iters`
test still lets through.  A division whose divisor is zero is flagged
separately (`stepHasDivByZero`), because rational division by zero
returns 0 while the double code produces a non-finite value there.
-/

/-- Squared Euclidean distance between two planar points, as lines 79-81
compute it: `dx*dx + dy*dy`. -/
def sqDist (a b : ℚ × ℚ) : ℚ :=
  (a.1 - b.1) * (a.1 - b.1) + (a.2 - b.2) * (a.2 - b.2)

/-- Modelled from the spec: the nearest-node query of the spatial index,
`tree = cKDTree(node_xy); tree.query(xy, k=1)[1]` at lines 54-55.
`scipy.spatial.cKDTree` is an external library whose code is not part of this
repository; section 4.1 of the spec gives its contract: the exact nearest
node under Euclidean distance, ties broken deterministically by the lowest
node index.  Returns 0 on an empty node list (the spec makes an empty index a
configuration error, and no claim evaluates that case). -/
def nearestNode : List (ℚ × ℚ) → ℚ × ℚ → ℕ
  | [], _ => 0
  | [_], _ => 0
  | x :: y :: ys, p =>
    if sqDist p x ≤ sqDist p ((y :: ys).getD (nearestNode (y :: ys) p) (0, 0))
    then 0 else nearestNode (y :: ys) p + 1

/-- Lines 54-55: one nearest-node index per data point. -/
def assign (node_xy xy : List (ℚ × ℚ)) : List ℕ :=
  xy.map (nearestNode node_xy)

/-- Lines 58 and 62: `node_population[idx[i]] += 1` over `i in
xrange(n_points)`. -/
def node_population (n_points : ℕ) (idx : List ℕ) (i : ℕ) : ℕ :=
  ((List.range n_points).filter (fun j => idx.getD j 0 = i)).length

/-- Lines 60 and 63: `weight_sum[idx[i]] += w[i]`. -/
def weight_sum (n_points : ℕ) (w : List ℚ) (idx : List ℕ) (i : ℕ) : ℚ :=
  (((List.range n_points).filter (fun j => idx.getD j 0 = i)).map
    (fun j => w.getD j 0)).sum

/-- Lines 59 and 64-65, first coordinate: `node_xy[idx[i], 0] += w[i] *
xy[i, 0]`. -/
def wx_sum (xy : List (ℚ × ℚ)) (w : List ℚ) (idx : List ℕ) (i : ℕ) : ℚ :=
  (((List.range xy.length).filter (fun j => idx.getD j 0 = i)).map
    (fun j => w.getD j 0 * (xy.getD j (0, 0)).1)).sum

/-- Lines 59 and 64-65, second coordinate: `node_xy[idx[i], 1] += w[i] *
xy[i, 1]`. -/
def wy_sum (xy : List (ℚ × ℚ)) (w : List ℚ) (idx : List ℕ) (i : ℕ) : ℚ :=
  (((List.range xy.length).filter (fun j => idx.getD j 0 = i)).map
    (fun j => w.getD j 0 * (xy.getD j (0, 0)).2)).sum

/-- Lines 66-74, the per-node update.  The guard is `node_population[i] > 0`
(a population test, not a test of the weight sum); in the positive branch the
code executes `node_xy[i, 0] /= weight_sum[i]` and `node_xy[i, 1] /=
weight_sum[i]`, and in the other branch it stores the sentinel `(0, 0)`.
Division here is rational division; when `weight_sum` is zero the double code
instead produces a non-finite IEEE value, and `stepHasDivByZero` below
records exactly when that happens. -/
def newNodePos (xy : List (ℚ × ℚ)) (w : List ℚ) (idx : List ℕ) (i : ℕ) :
    ℚ × ℚ :=
  if 0 < node_population xy.length idx i then
    (wx_sum xy w idx i / weight_sum xy.length w idx i,
     wy_sum xy w idx i / weight_sum xy.length w idx i)
  else (0, 0)

/-- Lines 76-81: total squared node displacement of a round, summed over the
node indices. -/
def delta (orig_node_xy new_node_xy : List (ℚ × ℚ)) : ℚ :=
  ((List.range orig_node_xy.length).map
    (fun i => sqDist (orig_node_xy.getD i (0, 0))
      (new_node_xy.getD i (0, 0)))).sum

/-- What one round of the loop body produces: the freshly allocated node
array, the assignment, and the value of the `delta` variable at line 85. -/
structure RoundResult where
  nodes : List (ℚ × ℚ)
  idx : List ℕ
  displacement : ℚ
  deriving DecidableEq

/-- One round of the `while True` body, lines 47-82: snapshot (line 49),
assignment (54-55), accumulation and centroid update into freshly allocated
arrays (58-74), displacement (76-81). -/
def lloydStep (xy : List (ℚ × ℚ)) (w : List ℚ) (node_xy : List (ℚ × ℚ)) :
    RoundResult :=
  ⟨(List.range node_xy.length).map (newNodePos xy w (assign node_xy xy)),
   assign node_xy xy,
   delta node_xy
     ((List.range node_xy.length).map (newNodePos xy w (assign node_xy xy)))⟩

/-- What `lloyd` returns, lines 86 and 88, together with the number of
executed rounds and the final value of the `delta` variable. -/
structure LloydResult where
  nodes : List (ℚ × ℚ)
  idx : List ℕ
  converged : Bool
  rounds : ℕ
  displacement : ℚ
  deriving DecidableEq

/-- Lines 47-90: the loop.  After each round, `if delta == 0: return ...,
True` ; `elif n_iters > max_iters: return ..., False` ; `else: n_iters += 1`.
The fuel is `max_iters + 1 - n_iters`, the number of rounds the
`n_iters > max_iters` test still lets through; `rounds` counts the executed
rounds of the returned run. -/
def lloydLoop (xy : List (ℚ × ℚ)) (w : List ℚ) :
    ℕ → List (ℚ × ℚ) → LloydResult
  | 0, node_xy =>
    let s := lloydStep xy w node_xy
    if s.displacement = 0 then ⟨s.nodes, s.idx, true, 1, s.displacement⟩
    else ⟨s.nodes, s.idx, false, 1, s.displacement⟩
  | f + 1, node_xy =>
    let s := lloydStep xy w node_xy
    if s.displacement = 0 then ⟨s.nodes, s.idx, true, 1, s.displacement⟩
    else
      let r := lloydLoop xy w f s.nodes
      ⟨r.nodes, r.idx, r.converged, r.rounds + 1, r.displacement⟩

/-- `lloyd` of lines 10-90.  `n_iters` starts at 0 (line 37), so the initial
fuel is `max_iters + 1`; `max_iters` is a natural number (the spec's
non-negative iteration budget). -/
def lloyd (xy : List (ℚ × ℚ)) (w : List ℚ) (node_xy : List (ℚ × ℚ))
    (max_iters : ℕ) : LloydResult :=
  lloydLoop xy w (max_iters + 1) node_xy

/-- True exactly when some node takes the positive-population branch of
lines 68-70 while `weight_sum[i]` is zero: the round then executes
`node_xy[i, 0] /= weight_sum[i]` with a zero divisor, which over IEEE
doubles yields a non-finite coordinate (NaN or a signed infinity), not the
`(0, 0)` sentinel of lines 71-74. -/
def stepHasDivByZero (xy : List (ℚ × ℚ)) (w : List ℚ)
    (node_xy : List (ℚ × ℚ)) : Bool :=
  (List.range node_xy.length).any fun i =>
    decide (0 < node_population xy.length (assign node_xy xy) i) &&
    decide (weight_sum xy.length w (assign node_xy xy) i = 0)

/-- Membership of index k in the nearest-node choice rule: in range, of
minimal squared distance to p, and the least index attaining that minimum. -/
def isNearestChoice (node_xy : List (ℚ × ℚ)) (p : ℚ × ℚ) (k : ℕ) : Prop :=
  k < node_xy.length ∧
  (∀ j < node_xy.length,
    sqDist p (node_xy.getD k (0, 0)) ≤ sqDist p (node_xy.getD j (0, 0))) ∧
  ∀ j < k, sqDist p (node_xy.getD k (0, 0)) < sqDist p (node_xy.getD j (0, 0))

/-- Caller-visible buffers plus the local variable `node_xy`, for the frame
property.  `xy` and `w` hold the caller's arrays (the code only reads them);
`init_node_xy` holds the contents of the array the caller passed as
`node_xy`; `node_xy` is the current binding of the local variable of that
name — line 59 rebinds it to a freshly allocated array every round before
any write, and line 49 copies rather than aliases, so no write of the round
ever targets a caller buffer. -/
structure PyState where
  xy : List (ℚ × ℚ)
  w : List ℚ
  init_node_xy : List (ℚ × ℚ)
  node_xy : List (ℚ × ℚ)
  deriving DecidableEq

/-- The loop of lines 47-90 again, threading the whole variable state: each
round only rebinds the local `node_xy`; the caller buffers pass through. -/
def lloydLoopSt : ℕ → PyState → PyState × LloydResult
  | 0, s =>
    let st := lloydStep s.xy s.w s.node_xy
    if st.displacement = 0 then
      ({ s with node_xy := st.nodes },
       ⟨st.nodes, st.idx, true, 1, st.displacement⟩)
    else
      ({ s with node_xy := st.nodes },
       ⟨st.nodes, st.idx, false, 1, st.displacement⟩)
  | f + 1, s =>
    let st := lloydStep s.xy s.w s.node_xy
    if st.displacement = 0 then
      ({ s with node_xy := st.nodes },
       ⟨st.nodes, st.idx, true, 1, st.displacement⟩)
    else
      let r := lloydLoopSt f { s with node_xy := st.nodes }
      (r.1, ⟨r.2.nodes, r.2.idx, r.2.converged, r.2.rounds + 1,
             r.2.displacement⟩)

/-- `lloyd` as a state transformer on the caller-visible buffers. -/
def lloydSt (s : PyState) (max_iters : ℕ) : PyState × LloydResult :=
  lloydLoopSt (max_iters + 1) s

/-! Basic facts about the embedded pieces. -/

/-- The node array a round builds has the node count of the array it read:
nodes are never created or destroyed mid-run. -/
theorem lloydStep_nodes_length (xy : List (ℚ × ℚ)) (w : List ℚ)
    (node_xy : List (ℚ × ℚ)) :
    (lloydStep xy w node_xy).nodes.length = node_xy.length := by
  simp [lloydStep]

/-- The displacement a round reports is the displacement between the array it
read and the array it built. -/
theorem lloydStep_displacement (xy : List (ℚ × ℚ)) (w : List ℚ)
    (node_xy : List (ℚ × ℚ)) :
    (lloydStep xy w node_xy).displacement =
      delta node_xy (lloydStep xy w node_xy).nodes := rfl

/-- Reading position i of a map over `List.range n`, for i < n. -/
theorem getD_map_range {α : Type} (f : ℕ → α) (n i : ℕ) (d : α) (h : i < n) :
    ((List.range n).map f).getD i d = f i := by
  rw [List.getD_eq_getElem?_getD, List.getElem?_map, List.getElem?_range h]
  rfl

/-- A node no point was assigned to has weight sum zero (the converse fails:
assigned points can have weights summing to zero). -/
theorem weight_sum_eq_zero_of_pop (n : ℕ) (w : List ℚ) (idx : List ℕ) (i : ℕ)
    (h : node_population n idx i = 0) : weight_sum n w idx i = 0 := by
  unfold node_population at h
  rw [List.length_eq_zero] at h
  unfold weight_sum
  rw [h]
  rfl

/-- A node with nonzero weight sum has at least one assigned point, so the
code's population guard admits it to the division branch. -/
theorem pop_pos_of_ws_ne_zero (n : ℕ) (w : List ℚ) (idx : List ℕ) (i : ℕ)
    (h : weight_sum n w idx i ≠ 0) : 0 < node_population n idx i := by
  rcases Nat.eq_zero_or_pos (node_population n idx i) with h0 | h0
  · exact absurd (weight_sum_eq_zero_of_pop n w idx i h0) h
  · exact h0

theorem sqDist_nonneg (a b : ℚ × ℚ) : 0 ≤ sqDist a b :=
  add_nonneg (mul_self_nonneg _) (mul_self_nonneg _)

theorem sqDist_self (a : ℚ × ℚ) : sqDist a a = 0 := by
  simp [sqDist]

theorem sqDist_eq_zero : ∀ {a b : ℚ × ℚ}, sqDist a b = 0 → a = b := by
  rintro ⟨a1, a2⟩ ⟨b1, b2⟩ h
  unfold sqDist at h
  simp only at h
  have h1 : (a1 - b1) * (a1 - b1) = 0 := by
    nlinarith [mul_self_nonneg (a1 - b1), mul_self_nonneg (a2 - b2)]
  have h2 : (a2 - b2) * (a2 - b2) = 0 := by
    nlinarith [mul_self_nonneg (a1 - b1), mul_self_nonneg (a2 - b2)]
  have e1 : a1 = b1 := by have := mul_self_eq_zero.mp h1; linarith
  have e2 : a2 = b2 := by have := mul_self_eq_zero.mp h2; linarith
  simp [e1, e2]

/-- A list of nonnegative rationals summing to zero is all zeros. -/
theorem list_sum_zero_mem {l : List ℚ} (hnn : ∀ x ∈ l, 0 ≤ x)
    (h : l.sum = 0) : ∀ x ∈ l, x = 0 := by
  induction l with
  | nil => intro x hx; cases hx
  | cons a t ih =>
    have hta : 0 ≤ t.sum :=
      List.sum_nonneg fun x hx => hnn x (List.mem_cons_of_mem a hx)
    have ha : 0 ≤ a := hnn a (List.mem_cons_self a t)
    rw [List.sum_cons] at h
    have ha0 : a = 0 := by linarith
    have ht0 : t.sum = 0 := by linarith
    intro x hx
    rcases List.mem_cons.mp hx with rfl | hx
    · exact ha0
    · exact ih (fun y hy => hnn y (List.mem_cons_of_mem a hy)) ht0 x hx

/-- Zero total squared displacement between equally long node arrays means
the arrays are equal: the exact-zero test fires only when no node moved. -/
theorem delta_eq_zero {a b : List (ℚ × ℚ)} (hlen : a.length = b.length)
    (h : delta a b = 0) : a = b := by
  unfold delta at h
  have hz : ∀ i, i < a.length →
      sqDist (a.getD i (0, 0)) (b.getD i (0, 0)) = 0 := by
    intro i hi
    refine list_sum_zero_mem ?_ h _ ?_
    · intro x hx
      obtain ⟨j, hj, rfl⟩ := List.mem_map.mp hx
      exact sqDist_nonneg _ _
    · exact List.mem_map.mpr ⟨i, List.mem_range.mpr hi, rfl⟩
  apply List.ext_getElem hlen
  intro i h1 h2
  have hi := sqDist_eq_zero (hz i h1)
  rwa [List.getD_eq_getElem a (0, 0) h1, List.getD_eq_getElem b (0, 0) h2]
    at hi

theorem delta_self (l : List (ℚ × ℚ)) : delta l l = 0 := by
  unfold delta
  apply List.sum_eq_zero
  intro x hx
  obtain ⟨j, hj, rfl⟩ := List.mem_map.mp hx
  exact sqDist_self _

/-! Properties of the nearest-node choice. -/

/-- The chosen index is in range whenever there is a node. -/
theorem nearestNode_lt : ∀ (ns : List (ℚ × ℚ)) (p : ℚ × ℚ), ns ≠ [] →
    nearestNode ns p < ns.length
  | [], _, h => absurd rfl h
  | [_], _, _ => by simp [nearestNode]
  | x :: y :: ys, p, _ => by
    rw [nearestNode]
    by_cases hc : sqDist p x ≤
        sqDist p ((y :: ys).getD (nearestNode (y :: ys) p) (0, 0))
    · rw [if_pos hc]
      simp
    · rw [if_neg hc]
      have := nearestNode_lt (y :: ys) p (by simp)
      simpa using Nat.succ_lt_succ this

/-- The chosen node is at minimal squared distance among all nodes. -/
theorem nearestNode_min : ∀ (ns : List (ℚ × ℚ)) (p : ℚ × ℚ) (j : ℕ),
    j < ns.length →
    sqDist p (ns.getD (nearestNode ns p) (0, 0)) ≤ sqDist p (ns.getD j (0, 0))
  | [], _, j, hj => by simp at hj
  | [x], p, j, hj => by
    have hj0 : j = 0 := Nat.lt_one_iff.mp (by simpa using hj)
    subst hj0
    simp [nearestNode]
  | x :: y :: ys, p, j, hj => by
    rw [nearestNode]
    by_cases hc : sqDist p x ≤
        sqDist p ((y :: ys).getD (nearestNode (y :: ys) p) (0, 0))
    · rw [if_pos hc]
      cases j with
      | zero => simp
      | succ j' =>
        have hj' : j' < (y :: ys).length := by simpa using hj
        calc sqDist p ((x :: y :: ys).getD 0 (0, 0))
            = sqDist p x := by simp
          _ ≤ sqDist p ((y :: ys).getD (nearestNode (y :: ys) p) (0, 0)) := hc
          _ ≤ sqDist p ((y :: ys).getD j' (0, 0)) :=
              nearestNode_min (y :: ys) p j' hj'
          _ = sqDist p ((x :: y :: ys).getD (j' + 1) (0, 0)) := by
              rw [List.getD_cons_succ]
    · rw [if_neg hc]
      cases j with
      | zero =>
        rw [List.getD_cons_succ, List.getD_cons_zero]
        exact le_of_lt (lt_of_not_le hc)
      | succ j' =>
        have hj' : j' < (y :: ys).length := by simpa using hj
        rw [List.getD_cons_succ, List.getD_cons_succ]
        exact nearestNode_min (y :: ys) p j' hj'

/-- Every index below the chosen one is strictly farther: among the minima,
the lowest index wins. -/
theorem nearestNode_least : ∀ (ns : List (ℚ × ℚ)) (p : ℚ × ℚ) (j : ℕ),
    j < nearestNode ns p →
    sqDist p (ns.getD (nearestNode ns p) (0, 0)) < sqDist p (ns.getD j (0, 0))
  | [], p, j, h => by simp [nearestNode] at h
  | [x], p, j, h => by simp [nearestNode] at h
  | x :: y :: ys, p, j, h => by
    rw [nearestNode] at h ⊢
    by_cases hc : sqDist p x ≤
        sqDist p ((y :: ys).getD (nearestNode (y :: ys) p) (0, 0))
    · rw [if_pos hc] at h
      exact absurd h (Nat.not_lt_zero j)
    · rw [if_neg hc] at h ⊢
      cases j with
      | zero =>
        rw [List.getD_cons_succ, List.getD_cons_zero]
        exact lt_of_not_le hc
      | succ j' =>
        have hj' : j' < nearestNode (y :: ys) p := Nat.lt_of_succ_lt_succ h
        rw [List.getD_cons_succ, List.getD_cons_succ]
        exact nearestNode_least (y :: ys) p j' hj'

/-- The choice rule determines the index: any index that is in range, of
minimal distance, and least among the minima is the one the query returns. -/
theorem nearestChoice_unique (ns : List (ℚ × ℚ)) (p : ℚ × ℚ) (k : ℕ)
    (h : isNearestChoice ns p k) : k = nearestNode ns p := by
  obtain ⟨hk, hmin, hleast⟩ := h
  have hne : ns ≠ [] := List.ne_nil_of_length_pos (Nat.pos_of_ne_zero (by omega))
  rcases lt_trichotomy k (nearestNode ns p) with hlt | heq | hgt
  · have h1 := nearestNode_least ns p k hlt
    have h2 := hmin (nearestNode ns p) (nearestNode_lt ns p hne)
    linarith
  · exact heq
  · have h1 := hleast (nearestNode ns p) hgt
    have h2 := nearestNode_min ns p k hk
    linarith

/-! Unfolding and invariants of the loop. -/

theorem lloydLoop_zero (xy : List (ℚ × ℚ)) (w : List ℚ)
    (node_xy : List (ℚ × ℚ)) :
    lloydLoop xy w 0 node_xy =
      if (lloydStep xy w node_xy).displacement = 0 then
        ⟨(lloydStep xy w node_xy).nodes, (lloydStep xy w node_xy).idx,
         true, 1, (lloydStep xy w node_xy).displacement⟩
      else
        ⟨(lloydStep xy w node_xy).nodes, (lloydStep xy w node_xy).idx,
         false, 1, (lloydStep xy w node_xy).displacement⟩ := rfl

theorem lloydLoop_succ (xy : List (ℚ × ℚ)) (w : List ℚ) (f : ℕ)
    (node_xy : List (ℚ × ℚ)) :
    lloydLoop xy w (f + 1) node_xy =
      if (lloydStep xy w node_xy).displacement = 0 then
        ⟨(lloydStep xy w node_xy).nodes, (lloydStep xy w node_xy).idx,
         true, 1, (lloydStep xy w node_xy).displacement⟩
      else
        ⟨(lloydLoop xy w f (lloydStep xy w node_xy).nodes).nodes,
         (lloydLoop xy w f (lloydStep xy w node_xy).nodes).idx,
         (lloydLoop xy w f (lloydStep xy w node_xy).nodes).converged,
         (lloydLoop xy w f (lloydStep xy w node_xy).nodes).rounds + 1,
         (lloydLoop xy w f (lloydStep xy w node_xy).nodes).displacement⟩ := rfl

/-- A fixed-point start: when the first round already has zero displacement,
any fuel returns after that one round. -/
theorem lloydLoop_fixpoint (xy : List (ℚ × ℚ)) (w : List ℚ) (fuel : ℕ)
    (node_xy : List (ℚ × ℚ))
    (h : (lloydStep xy w node_xy).displacement = 0) :
    lloydLoop xy w fuel node_xy =
      ⟨(lloydStep xy w node_xy).nodes, (lloydStep xy w node_xy).idx,
       true, 1, (lloydStep xy w node_xy).displacement⟩ := by
  cases fuel with
  | zero => rw [lloydLoop_zero, if_pos h]
  | succ f => rw [lloydLoop_succ, if_pos h]

/-- Round counting: at most `fuel + 1` rounds run, and a `converged = false`
return ran exactly `fuel + 1` rounds. -/
theorem lloydLoop_rounds (xy : List (ℚ × ℚ)) (w : List ℚ) :
    ∀ (fuel : ℕ) (node_xy : List (ℚ × ℚ)),
      (lloydLoop xy w fuel node_xy).rounds ≤ fuel + 1 ∧
      ((lloydLoop xy w fuel node_xy).converged = false →
        (lloydLoop xy w fuel node_xy).rounds = fuel + 1) := by
  intro fuel
  induction fuel with
  | zero =>
    intro node_xy
    rw [lloydLoop_zero]
    by_cases hd : (lloydStep xy w node_xy).displacement = 0 <;> simp [hd]
  | succ f ih =>
    intro node_xy
    rw [lloydLoop_succ]
    by_cases hd : (lloydStep xy w node_xy).displacement = 0
    · simp [hd]
    · rw [if_neg hd]
      obtain ⟨h1, h2⟩ := ih (lloydStep xy w node_xy).nodes
      refine ⟨by simpa using Nat.succ_le_succ h1, fun hc => ?_⟩
      have := h2 (by simpa using hc)
      simpa using congrArg Nat.succ this

/-- The returned flag is the exact-zero test on the returned displacement. -/
theorem lloydLoop_conv_iff (xy : List (ℚ × ℚ)) (w : List ℚ) :
    ∀ (fuel : ℕ) (node_xy : List (ℚ × ℚ)),
      ((lloydLoop xy w fuel node_xy).converged = true ↔
        (lloydLoop xy w fuel node_xy).displacement = 0) := by
  intro fuel
  induction fuel with
  | zero =>
    intro node_xy
    rw [lloydLoop_zero]
    by_cases hd : (lloydStep xy w node_xy).displacement = 0 <;> simp [hd]
  | succ f ih =>
    intro node_xy
    rw [lloydLoop_succ]
    by_cases hd : (lloydStep xy w node_xy).displacement = 0
    · simp [hd]
    · rw [if_neg hd]
      simpa using ih (lloydStep xy w node_xy).nodes

/-- A converged run ends in a fixed point: one more round from the returned
nodes produces zero displacement. -/
theorem lloydLoop_converged_fix (xy : List (ℚ × ℚ)) (w : List ℚ) :
    ∀ (fuel : ℕ) (node_xy : List (ℚ × ℚ)),
      (lloydLoop xy w fuel node_xy).converged = true →
      (lloydStep xy w (lloydLoop xy w fuel node_xy).nodes).displacement
        = 0 := by
  intro fuel
  induction fuel with
  | zero =>
    intro node_xy h
    rw [lloydLoop_zero] at h ⊢
    by_cases hd : (lloydStep xy w node_xy).displacement = 0
    · rw [if_pos hd]
      have hnodes : node_xy = (lloydStep xy w node_xy).nodes :=
        delta_eq_zero (lloydStep_nodes_length xy w node_xy).symm
          ((lloydStep_displacement xy w node_xy) ▸ hd)
      show (lloydStep xy w (lloydStep xy w node_xy).nodes).displacement = 0
      rw [← hnodes]
      exact hd
    · rw [if_neg hd] at h
      exact absurd h (by simp)
  | succ f ih =>
    intro node_xy h
    rw [lloydLoop_succ] at h ⊢
    by_cases hd : (lloydStep xy w node_xy).displacement = 0
    · rw [if_pos hd]
      have hnodes : node_xy = (lloydStep xy w node_xy).nodes :=
        delta_eq_zero (lloydStep_nodes_length xy w node_xy).symm
          ((lloydStep_displacement xy w node_xy) ▸ hd)
      show (lloydStep xy w (lloydStep xy w node_xy).nodes).displacement = 0
      rw [← hnodes]
      exact hd
    · rw [if_neg hd] at h ⊢
      exact ih (lloydStep xy w node_xy).nodes (by simpa using h)

/-- One round's assignment is total: one entry per point, every entry a
valid node index. -/
theorem lloydStep_idx (xy : List (ℚ × ℚ)) (w : List ℚ)
    (node_xy : List (ℚ × ℚ)) (h : node_xy ≠ []) :
    (lloydStep xy w node_xy).idx.length = xy.length ∧
    ∀ j ∈ (lloydStep xy w node_xy).idx, j < node_xy.length := by
  constructor
  · simp [lloydStep, assign]
  · intro j hj
    simp only [lloydStep, assign, List.mem_map] at hj
    obtain ⟨p, hp, rfl⟩ := hj
    exact nearestNode_lt node_xy p h

/-- The loop preserves the node count and returns a total assignment, at
every fuel level (hence after every round). -/
theorem lloydLoop_idx (xy : List (ℚ × ℚ)) (w : List ℚ) :
    ∀ (fuel : ℕ) (node_xy : List (ℚ × ℚ)), node_xy ≠ [] →
      (lloydLoop xy w fuel node_xy).nodes.length = node_xy.length ∧
      (lloydLoop xy w fuel node_xy).idx.length = xy.length ∧
      ∀ j ∈ (lloydLoop xy w fuel node_xy).idx, j < node_xy.length := by
  intro fuel
  induction fuel with
  | zero =>
    intro node_xy h
    rw [lloydLoop_zero]
    by_cases hd : (lloydStep xy w node_xy).displacement = 0 <;>
      [rw [if_pos hd]; rw [if_neg hd]] <;>
      exact ⟨lloydStep_nodes_length xy w node_xy,
        (lloydStep_idx xy w node_xy h).1, (lloydStep_idx xy w node_xy h).2⟩
  | succ f ih =>
    intro node_xy h
    rw [lloydLoop_succ]
    by_cases hd : (lloydStep xy w node_xy).displacement = 0
    · rw [if_pos hd]
      exact ⟨lloydStep_nodes_length xy w node_xy,
        (lloydStep_idx xy w node_xy h).1, (lloydStep_idx xy w node_xy h).2⟩
    · rw [if_neg hd]
      have hlen := lloydStep_nodes_length xy w node_xy
      have hne : (lloydStep xy w node_xy).nodes ≠ [] := by
        intro hnil
        rw [hnil] at hlen
        exact h (List.eq_nil_of_length_eq_zero hlen.symm)
      obtain ⟨i1, i2, i3⟩ := ih (lloydStep xy w node_xy).nodes hne
      exact ⟨by rw [← hlen]; exact i1, i2, fun j hj => hlen ▸ i3 j hj⟩

/-- With a single node, every point is assigned index 0, whatever the node's
position: the assignment does not depend on the node coordinate. -/
theorem assign_single (c : ℚ × ℚ) (xy : List (ℚ × ℚ)) :
    assign [c] xy = xy.map fun _ => 0 := rfl

/-- With a single node the round moves it to `newNodePos` of the constant
assignment, independently of where the node was. -/
theorem lloydStep_single (xy : List (ℚ × ℚ)) (w : List ℚ) (c : ℚ × ℚ) :
    (lloydStep xy w [c]).nodes =
      [newNodePos xy w (xy.map fun _ => 0) 0] := rfl

/-- With zero points every accumulator is empty, so every node is written
the sentinel: the round builds an all-(0, 0) node array and an empty
assignment. -/
theorem lloydStep_no_points (w : List ℚ) (node_xy : List (ℚ × ℚ)) :
    (lloydStep [] w node_xy).nodes =
      List.replicate node_xy.length (0, 0) ∧
    (lloydStep [] w node_xy).idx = [] := by
  constructor
  · show (List.range node_xy.length).map (newNodePos [] w (assign node_xy []))
      = List.replicate node_xy.length (0, 0)
    have hconst : ∀ i, newNodePos [] w (assign node_xy []) i = (0, 0) :=
      fun i => rfl
    calc (List.range node_xy.length).map (newNodePos [] w (assign node_xy []))
        = (List.range node_xy.length).map fun _ => ((0 : ℚ), (0 : ℚ)) := by
          exact List.map_congr_left fun i _ => hconst i
      _ = List.replicate node_xy.length (0, 0) := by
          rw [List.map_const', List.length_range]
  · rfl

/-- Starting a round from an all-sentinel node array with zero points is a
fixed point: the round rebuilds the same all-sentinel array. -/
theorem lloydStep_no_points_fix (w : List ℚ) (n : ℕ) :
    (lloydStep [] w (List.replicate n ((0 : ℚ), (0 : ℚ)))).displacement
      = 0 := by
  rw [lloydStep_displacement,
    (lloydStep_no_points w (List.replicate n ((0 : ℚ), (0 : ℚ)))).1,
    List.length_replicate]
  exact delta_self _

theorem lloydLoopSt_zero (s : PyState) :
    lloydLoopSt 0 s =
      if (lloydStep s.xy s.w s.node_xy).displacement = 0 then
        ({ s with node_xy := (lloydStep s.xy s.w s.node_xy).nodes },
         ⟨(lloydStep s.xy s.w s.node_xy).nodes,
          (lloydStep s.xy s.w s.node_xy).idx,
          true, 1, (lloydStep s.xy s.w s.node_xy).displacement⟩)
      else
        ({ s with node_xy := (lloydStep s.xy s.w s.node_xy).nodes },
         ⟨(lloydStep s.xy s.w s.node_xy).nodes,
          (lloydStep s.xy s.w s.node_xy).idx,
          false, 1, (lloydStep s.xy s.w s.node_xy).displacement⟩) := rfl

theorem lloydLoopSt_succ (f : ℕ) (s : PyState) :
    lloydLoopSt (f + 1) s =
      if (lloydStep s.xy s.w s.node_xy).displacement = 0 then
        ({ s with node_xy := (lloydStep s.xy s.w s.node_xy).nodes },
         ⟨(lloydStep s.xy s.w s.node_xy).nodes,
          (lloydStep s.xy s.w s.node_xy).idx,
          true, 1, (lloydStep s.xy s.w s.node_xy).displacement⟩)
      else
        ((lloydLoopSt f
            { s with node_xy := (lloydStep s.xy s.w s.node_xy).nodes }).1,
         ⟨(lloydLoopSt f
            { s with node_xy := (lloydStep s.xy s.w s.node_xy).nodes }).2.nodes,
          (lloydLoopSt f
            { s with node_xy := (lloydStep s.xy s.w s.node_xy).nodes }).2.idx,
          (lloydLoopSt f
            { s with node_xy := (lloydStep s.xy s.w s.node_xy).nodes }).2.converged,
          (lloydLoopSt f
            { s with node_xy := (lloydStep s.xy s.w s.node_xy).nodes }).2.rounds + 1,
          (lloydLoopSt f
            { s with node_xy := (lloydStep s.xy s.w s.node_xy).nodes }).2.displacement⟩) := rfl

/-- The state-threaded loop leaves every caller buffer unchanged and its
returned result is the value of the pure loop on those buffers. -/
theorem lloydLoopSt_frame : ∀ (fuel : ℕ) (s : PyState),
    (lloydLoopSt fuel s).1.xy = s.xy ∧
    (lloydLoopSt fuel s).1.w = s.w ∧
    (lloydLoopSt fuel s).1.init_node_xy = s.init_node_xy ∧
    (lloydLoopSt fuel s).2 = lloydLoop s.xy s.w fuel s.node_xy := by
  intro fuel
  induction fuel with
  | zero =>
    intro s
    rw [lloydLoopSt_zero, lloydLoop_zero]
    by_cases hd : (lloydStep s.xy s.w s.node_xy).displacement = 0
    · rw [if_pos hd, if_pos hd]
      exact ⟨rfl, rfl, rfl, rfl⟩
    · rw [if_neg hd, if_neg hd]
      exact ⟨rfl, rfl, rfl, rfl⟩
  | succ f ih =>
    intro s
    rw [lloydLoopSt_succ, lloydLoop_succ]
    by_cases hd : (lloydStep s.xy s.w s.node_xy).displacement = 0
    · rw [if_pos hd, if_pos hd]
      exact ⟨rfl, rfl, rfl, rfl⟩
    · rw [if_neg hd, if_neg hd]
      obtain ⟨h1, h2, h3, h4⟩ :=
        ih { s with node_xy := (lloydStep s.xy s.w s.node_xy).nodes }
      exact ⟨h1, h2, h3, by rw [h4]⟩

/-! Claims. -/

/-- C1 (confirmed): in every round, a node whose assigned weight sum is
strictly positive gets the weighted centroid of its assigned points — the
accumulated w·x and w·y sums divided by the weight sum.  A positive weight
sum forces a positive population, so the code's population guard of line 68
admits exactly such nodes to the division branch of lines 69-70. -/
theorem C1_positive_weight_centroid (xy : List (ℚ × ℚ)) (w : List ℚ)
    (node_xy : List (ℚ × ℚ)) (i : ℕ) (hi : i < node_xy.length)
    (hw : 0 < weight_sum xy.length w (assign node_xy xy) i) :
    (lloydStep xy w node_xy).nodes.getD i (0, 0) =
      (wx_sum xy w (assign node_xy xy) i /
         weight_sum xy.length w (assign node_xy xy) i,
       wy_sum xy w (assign node_xy xy) i /
         weight_sum xy.length w (assign node_xy xy) i) := by
  show ((List.range node_xy.length).map
      (newNodePos xy w (assign node_xy xy))).getD i (0, 0) = _
  rw [getD_map_range _ _ _ _ hi]
  unfold newNodePos
  rw [if_pos (pop_pos_of_ws_ne_zero _ _ _ _ (ne_of_gt hw))]

/-- C1 witness: two unit-weight points, one node; the node has weight sum
2 > 0 and its new position is the weighted centroid. -/
theorem C1_witness :
    (lloydStep [(0, 0), (2, 0)] [1, 1] [(0, 0)]).nodes.getD 0 (0, 0) =
      (wx_sum [(0, 0), (2, 0)] [1, 1] (assign [(0, 0)] [(0, 0), (2, 0)]) 0 /
         weight_sum [(0, 0), (2, 0)].length [1, 1]
           (assign [(0, 0)] [(0, 0), (2, 0)]) 0,
       wy_sum [(0, 0), (2, 0)] [1, 1] (assign [(0, 0)] [(0, 0), (2, 0)]) 0 /
         weight_sum [(0, 0), (2, 0)].length [1, 1]
           (assign [(0, 0)] [(0, 0), (2, 0)]) 0) :=
  C1_positive_weight_centroid [(0, 0), (2, 0)] [1, 1] [(0, 0)] 0
    (by decide) (by with_unfolding_all decide)

/-- C2 counterexample (the claim is false on the code): points (1,0) and
(3,0) with weights 1 and -1 and a single node.  Both points are assigned to
node 0 and the weight sum is 0, yet the population is 2 > 0, so the code
takes the division branch of lines 68-70 with divisor 0 — over IEEE doubles
the node's coordinates become (-2)/0 and 0/0, non-finite — and the sentinel
branch of lines 71-74 that the claim asserts for every zero-weight-sum node
is not executed. -/
theorem C2_counterexample :
    0 < node_population 2 (assign [(0, 0)] [(1, 0), (3, 0)]) 0 ∧
    weight_sum 2 [1, -1] (assign [(0, 0)] [(1, 0), (3, 0)]) 0 = 0 ∧
    stepHasDivByZero [(1, 0), (3, 0)] [1, -1] [(0, 0)] = true := by
  with_unfolding_all decide

/-- C2 amended and proved: the sentinel policy is keyed to the population,
not to the weight sum.  A node with no assigned points gets position (0, 0),
and such a node indeed has weight sum 0; but a node whose assigned points
have total weight 0 takes the division branch and divides by zero
(non-finite over doubles), as `C2_counterexample` shows. -/
theorem C2_empty_node_sentinel (xy : List (ℚ × ℚ)) (w : List ℚ)
    (node_xy : List (ℚ × ℚ)) (i : ℕ) (hi : i < node_xy.length)
    (hp : node_population xy.length (assign node_xy xy) i = 0) :
    (lloydStep xy w node_xy).nodes.getD i (0, 0) = (0, 0) ∧
    weight_sum xy.length w (assign node_xy xy) i = 0 := by
  refine ⟨?_, weight_sum_eq_zero_of_pop _ _ _ _ hp⟩
  show ((List.range node_xy.length).map
      (newNodePos xy w (assign node_xy xy))).getD i (0, 0) = _
  rw [getD_map_range _ _ _ _ hi]
  unfold newNodePos
  rw [hp, if_neg (lt_irrefl 0)]

/-- C2 witness: one point at the origin, two nodes; the far node gets no
point and its new position is the (0, 0) sentinel with weight sum 0. -/
theorem C2_witness :
    (lloydStep [(0, 0)] [1] [(0, 0), (5, 5)]).nodes.getD 1 (0, 0) = (0, 0) ∧
    weight_sum [((0 : ℚ), (0 : ℚ))].length [1]
      (assign [(0, 0), (5, 5)] [(0, 0)]) 1 = 0 :=
  C2_empty_node_sentinel [(0, 0)] [1] [(0, 0), (5, 5)] 1 (by decide)
    (by with_unfolding_all decide)

/-- C3 counterexample (the claim is false on the code): points (0,0),(4,0)
with unit weights, nodes (0,0),(10,0), max_iters = 0.  The run returns
converged = false after 2 rounds, not after the claimed max_iters + 1 = 1
round: `n_iters` passes through 0 and 1 before `n_iters > max_iters`
fires. -/
theorem C3_counterexample :
    (lloyd [(0, 0), (4, 0)] [1, 1] [(0, 0), (10, 0)] 0).converged = false ∧
    (lloyd [(0, 0), (4, 0)] [1, 1] [(0, 0), (10, 0)] 0).rounds = 2 ∧
    (lloyd [(0, 0), (4, 0)] [1, 1] [(0, 0), (10, 0)] 0).rounds ≠ 0 + 1 := by
  with_unfolding_all decide

/-- C3 amended and proved: the loop always terminates and performs at most
max_iters + 2 rounds, and a converged = false return performed exactly
max_iters + 2 rounds: the counter starts at 0 and the unsuccessful exit of
line 88 fires only in the round that sees the counter at max_iters + 1.
Budget exhaustion is this normal False return, not an error. -/
theorem C3_round_budget (xy : List (ℚ × ℚ)) (w : List ℚ)
    (node_xy : List (ℚ × ℚ)) (max_iters : ℕ) :
    (lloyd xy w node_xy max_iters).rounds ≤ max_iters + 2 ∧
    ((lloyd xy w node_xy max_iters).converged = false →
      (lloyd xy w node_xy max_iters).rounds = max_iters + 2) :=
  lloydLoop_rounds xy w (max_iters + 1) node_xy

/-- C4 (confirmed): lloyd returns converged = true exactly when the final
round's total squared displacement — `delta`, the sum over nodes of the
squared Euclidean distance `sqDist` between pre- and post-round positions —
equals exactly zero; line 85 tests `delta == 0` with no tolerance. -/
theorem C4_converged_iff_zero_displacement (xy : List (ℚ × ℚ)) (w : List ℚ)
    (node_xy : List (ℚ × ℚ)) (max_iters : ℕ) :
    (lloyd xy w node_xy max_iters).converged = true ↔
    (lloyd xy w node_xy max_iters).displacement = 0 :=
  lloydLoop_conv_iff xy w (max_iters + 1) node_xy

/-- C5 counterexample (the claim's round count is false on the code): the
claim's own example — points (0,0),(2,0), weights 1,1, initial node (0,0) —
converges to node (1,0) but in 2 rounds, not 1: the first round moves the
node to the centroid with displacement 1 > 0, and only the second round
observes zero displacement. -/
theorem C5_counterexample :
    (lloyd [(0, 0), (2, 0)] [1, 1] [(0, 0)] 5).converged = true ∧
    (lloyd [(0, 0), (2, 0)] [1, 1] [(0, 0)] 5).nodes = [(1, 0)] ∧
    (lloyd [(0, 0), (2, 0)] [1, 1] [(0, 0)] 5).rounds = 2 ∧
    (lloyd [(0, 0), (2, 0)] [1, 1] [(0, 0)] 5).rounds ≠ 1 := by
  with_unfolding_all decide

/-- C5 amended and proved: with a single node and positive total weight,
lloyd converges for every budget and the final node is the weighted centroid
of all points, but in at most two rounds — one round exactly when the
initial node already sits at the centroid, two otherwise. -/
theorem C5_single_node (xy : List (ℚ × ℚ)) (w : List ℚ) (n0 : ℚ × ℚ)
    (max_iters : ℕ)
    (hw : 0 < weight_sum xy.length w (xy.map (fun _ => 0)) 0) :
    (lloyd xy w [n0] max_iters).converged = true ∧
    (lloyd xy w [n0] max_iters).rounds ≤ 2 ∧
    (lloyd xy w [n0] max_iters).nodes =
      [(wx_sum xy w (xy.map (fun _ => 0)) 0 /
          weight_sum xy.length w (xy.map (fun _ => 0)) 0,
        wy_sum xy w (xy.map (fun _ => 0)) 0 /
          weight_sum xy.length w (xy.map (fun _ => 0)) 0)] := by
  have hc : newNodePos xy w (xy.map (fun _ => 0)) 0 =
      (wx_sum xy w (xy.map (fun _ => 0)) 0 /
         weight_sum xy.length w (xy.map (fun _ => 0)) 0,
       wy_sum xy w (xy.map (fun _ => 0)) 0 /
         weight_sum xy.length w (xy.map (fun _ => 0)) 0) := by
    unfold newNodePos
    rw [if_pos (pop_pos_of_ws_ne_zero _ _ _ _ (ne_of_gt hw))]
  have hfix :
      (lloydStep xy w [newNodePos xy w (xy.map (fun _ => 0)) 0]).displacement
        = 0 := by
    rw [lloydStep_displacement, lloydStep_single]
    exact delta_self _
  unfold lloyd
  rw [lloydLoop_succ]
  by_cases hd : (lloydStep xy w [n0]).displacement = 0
  · rw [if_pos hd]
    refine ⟨rfl, (by decide : (1 : ℕ) ≤ 2), ?_⟩
    rw [lloydStep_single, hc]
  · rw [if_neg hd, lloydStep_single,
      lloydLoop_fixpoint xy w max_iters _ hfix]
    refine ⟨rfl, (by decide : (2 : ℕ) ≤ 2), ?_⟩
    show (lloydStep xy w [newNodePos xy w (xy.map (fun _ => 0)) 0]).nodes = _
    rw [lloydStep_single, hc]

/-- C5 witness: the claim's example through the amended theorem. -/
theorem C5_witness :
    (lloyd [(0, 0), (2, 0)] [1, 1] [(0, 0)] 5).converged = true ∧
    (lloyd [(0, 0), (2, 0)] [1, 1] [(0, 0)] 5).rounds ≤ 2 ∧
    (lloyd [(0, 0), (2, 0)] [1, 1] [(0, 0)] 5).nodes =
      [(wx_sum [(0, 0), (2, 0)] [1, 1] ([(0, 0), (2, 0)].map (fun _ => 0)) 0 /
          weight_sum [(0, 0), (2, 0)].length [1, 1]
            ([(0, 0), (2, 0)].map (fun _ => 0)) 0,
        wy_sum [(0, 0), (2, 0)] [1, 1] ([(0, 0), (2, 0)].map (fun _ => 0)) 0 /
          weight_sum [(0, 0), (2, 0)].length [1, 1]
            ([(0, 0), (2, 0)].map (fun _ => 0)) 0)] :=
  C5_single_node [(0, 0), (2, 0)] [1, 1] (0, 0) 5 (by with_unfolding_all decide)

/-- C6 (confirmed): whenever lloyd returns converged = true, re-running it
with the returned nodes as initial nodes (same points and weights, any
budget) converges immediately in round 1 with zero total squared
displacement: a converged return is a fixed point of the round. -/
theorem C6_idempotent_after_convergence (xy : List (ℚ × ℚ)) (w : List ℚ)
    (node_xy : List (ℚ × ℚ)) (max_iters budget2 : ℕ)
    (h : (lloyd xy w node_xy max_iters).converged = true) :
    (lloyd xy w (lloyd xy w node_xy max_iters).nodes budget2).converged
      = true ∧
    (lloyd xy w (lloyd xy w node_xy max_iters).nodes budget2).rounds = 1 ∧
    (lloyd xy w (lloyd xy w node_xy max_iters).nodes budget2).displacement
      = 0 := by
  have hfix := lloydLoop_converged_fix xy w (max_iters + 1) node_xy h
  have hrun : lloyd xy w (lloyd xy w node_xy max_iters).nodes budget2 =
      ⟨(lloydStep xy w (lloyd xy w node_xy max_iters).nodes).nodes,
       (lloydStep xy w (lloyd xy w node_xy max_iters).nodes).idx,
       true, 1,
       (lloydStep xy w (lloyd xy w node_xy max_iters).nodes).displacement⟩ :=
    lloydLoop_fixpoint xy w (budget2 + 1) _ hfix
  rw [hrun]
  exact ⟨rfl, rfl, hfix⟩

/-- C6 witness: the converged two-point run re-run from its returned node. -/
theorem C6_witness :
    (lloyd [(0, 0), (2, 0)] [1, 1]
      (lloyd [(0, 0), (2, 0)] [1, 1] [(0, 0)] 5).nodes 3).converged = true ∧
    (lloyd [(0, 0), (2, 0)] [1, 1]
      (lloyd [(0, 0), (2, 0)] [1, 1] [(0, 0)] 5).nodes 3).rounds = 1 ∧
    (lloyd [(0, 0), (2, 0)] [1, 1]
      (lloyd [(0, 0), (2, 0)] [1, 1] [(0, 0)] 5).nodes 3).displacement = 0 :=
  C6_idempotent_after_convergence [(0, 0), (2, 0)] [1, 1] [(0, 0)] 5 3
    (by with_unfolding_all decide)

/-- C7 (confirmed): the assignment is total, both in the round body (hence
after every round) and in the returned result: its length is n_points — one
entry per point index, positionally, so every index in [0, n_points) is a
key exactly once — and every entry is a node index in [0, n_nodes), where
the loop keeps the node count equal to the initial one. -/
theorem C7_assignment_total (xy : List (ℚ × ℚ)) (w : List ℚ)
    (node_xy : List (ℚ × ℚ)) (max_iters : ℕ) (h : node_xy ≠ []) :
    ((lloydStep xy w node_xy).idx.length = xy.length ∧
      ∀ j ∈ (lloydStep xy w node_xy).idx, j < node_xy.length) ∧
    ((lloyd xy w node_xy max_iters).idx.length = xy.length ∧
      ∀ j ∈ (lloyd xy w node_xy max_iters).idx, j < node_xy.length) :=
  ⟨lloydStep_idx xy w node_xy h,
   (lloydLoop_idx xy w (max_iters + 1) node_xy h).2⟩

/-- C7 witness: a two-point, two-node run. -/
theorem C7_witness :
    ((lloydStep [(0, 0), (4, 0)] [1, 1] [(0, 0), (10, 0)]).idx.length
        = [((0 : ℚ), (0 : ℚ)), (4, 0)].length ∧
      ∀ j ∈ (lloydStep [(0, 0), (4, 0)] [1, 1] [(0, 0), (10, 0)]).idx,
        j < [((0 : ℚ), (0 : ℚ)), (10, 0)].length) ∧
    ((lloyd [(0, 0), (4, 0)] [1, 1] [(0, 0), (10, 0)] 0).idx.length
        = [((0 : ℚ), (0 : ℚ)), (4, 0)].length ∧
      ∀ j ∈ (lloyd [(0, 0), (4, 0)] [1, 1] [(0, 0), (10, 0)] 0).idx,
        j < [((0 : ℚ), (0 : ℚ)), (10, 0)].length) :=
  C7_assignment_total [(0, 0), (4, 0)] [1, 1] [(0, 0), (10, 0)] 0 (by decide)

/-- C8 counterexample (the claim is false on the code): a zero-points input
is not aborted and no configuration error precedes the loop.  The run
completes and returns a full normal result — the node snapped to the
sentinel, an empty assignment, converged = true after 2 rounds. -/
theorem C8_counterexample :
    lloyd [] [] [(1, 1)] 0 = ⟨[(0, 0)], [], true, 2, 0⟩ := by
  with_unfolding_all decide

/-- C8 amended and proved: the source contains no input validation.  For any
node list, weight list and budget, a zero-points run completes normally:
converged = true, every node at the (0, 0) sentinel, the empty assignment,
at most two rounds.  Aborts on other invalid inputs can only arise
incidentally inside the external array and k-d-tree libraries, not from
this code, which never checks its inputs. -/
theorem C8_no_validation_empty_points (node_xy : List (ℚ × ℚ)) (w : List ℚ)
    (max_iters : ℕ) :
    (lloyd [] w node_xy max_iters).converged = true ∧
    (lloyd [] w node_xy max_iters).nodes =
      List.replicate node_xy.length (0, 0) ∧
    (lloyd [] w node_xy max_iters).idx = [] ∧
    (lloyd [] w node_xy max_iters).rounds ≤ 2 := by
  obtain ⟨hn, hi⟩ := lloydStep_no_points w node_xy
  unfold lloyd
  rw [lloydLoop_succ]
  by_cases hd : (lloydStep [] w node_xy).displacement = 0
  · rw [if_pos hd]
    exact ⟨rfl, hn, hi, (by decide : (1 : ℕ) ≤ 2)⟩
  · rw [if_neg hd, hn,
      lloydLoop_fixpoint [] w max_iters _
        (lloydStep_no_points_fix w node_xy.length)]
    refine ⟨rfl, ?_, ?_, (by decide : (2 : ℕ) ≤ 2)⟩
    · show (lloydStep [] w (List.replicate node_xy.length (0, 0))).nodes = _
      rw [(lloydStep_no_points w (List.replicate node_xy.length (0, 0))).1,
        List.length_replicate]
    · exact (lloydStep_no_points w (List.replicate node_xy.length (0, 0))).2

/-- C9 (confirmed against the modelled index contract): the nearest-node
assignment is deterministic — the chosen index is the unique index that is
in range, at minimal squared Euclidean distance, and lowest among the tied
minima, so any two evaluations on the same nodes and point agree, with the
lowest-index rule breaking ties consistently across a batch. -/
theorem C9_deterministic_nearest (node_xy : List (ℚ × ℚ)) (p : ℚ × ℚ)
    (h : node_xy ≠ []) :
    isNearestChoice node_xy p (nearestNode node_xy p) ∧
    ∀ k, isNearestChoice node_xy p k → k = nearestNode node_xy p :=
  ⟨⟨nearestNode_lt node_xy p h, fun j hj => nearestNode_min node_xy p j hj,
    fun j hj => nearestNode_least node_xy p j hj⟩,
   fun k hk => nearestChoice_unique node_xy p k hk⟩

/-- C9 witness: a point at equal distance to both nodes; the unique choice
is node 0, the lowest tied index. -/
theorem C9_witness :
    isNearestChoice [(0, 0), (2, 0)] (1, 0)
      (nearestNode [(0, 0), (2, 0)] (1, 0)) ∧
    ∀ k, isNearestChoice [(0, 0), (2, 0)] (1, 0) k →
      k = nearestNode [(0, 0), (2, 0)] (1, 0) :=
  C9_deterministic_nearest [(0, 0), (2, 0)] (1, 0) (by decide)

/-- C10 (confirmed): lloyd never mutates its input buffers.  Across the
whole state-threaded run the caller's point coordinates, weights and initial
node array are unchanged — every round's writes target the freshly
allocated arrays of lines 58-60, with the node variable rebound at line 59
before any write — and the returned result is exactly the pure function of
the inputs. -/
theorem C10_no_input_mutation (s : PyState) (max_iters : ℕ) :
    (lloydSt s max_iters).1.xy = s.xy ∧
    (lloydSt s max_iters).1.w = s.w ∧
    (lloydSt s max_iters).1.init_node_xy = s.init_node_xy ∧
    (lloydSt s max_iters).2 = lloyd s.xy s.w s.node_xy max_iters :=
  lloydLoopSt_frame (max_iters + 1) s
